import Mathlib

/-!
Verification development for the core of the `alteruphono` phonological
sound-change engine (rule parsing, pattern matching, bidirectional rule
application, feature arithmetic over a feature geometry).

The Python implementation of the core is not part of the source tree that
accompanies this development (the tree holds the README, the user guide,
the grammar file `sound_change.ebnf` and design documents), so the
operational definitions below are modelled from the specification's own
description of each component, with the EBNF grammar as the authority for
the lexical facts it fixes.  Each such definition carries a doc comment
starting with `Modelled from the spec:`.
-/

namespace Alteruphono

/-- Modelled from the spec: a phonological segment with a grapheme, an
unordered set of feature labels, and a flag marking class patterns whose
features must subsume a candidate's features (`partial` in the source;
renamed `isPartial` because `partial` is a Lean keyword). -/
structure Sound where
  grapheme : String
  features : Finset String
  isPartial : Bool
deriving DecidableEq

/-- Modelled from the spec: an element of a segment sequence is either a
concrete sound or a word/morpheme boundary pseudo-segment. -/
inductive Element where
  | sound (s : Sound)
  | boundary (marker : String)
deriving DecidableEq

/-! ## Feature geometry (Clements & Hume 1995 tree) -/

/-- Modelled from the spec: one feature node of the geometry tree, stored
flat: the name of its parent node, its own name, its depth (edges from the
root) and the feature labels it carries (polar opposites live in the same
node). -/
structure GeoEntry where
  parent : String
  node : String
  depth : Nat
  labels : List String
deriving DecidableEq, Repr

/-- Modelled from the spec: the feature geometry tree as documented in the
README and the user guide (`alteruphono.features.geometry.GEOMETRY`),
flattened into a list of feature nodes.  Intermediate geometry nodes
(Laryngeal, Manner, Place, ...) appear only as `parent` names. -/
def GEOMETRY : List GeoEntry :=
  [ ⟨"Laryngeal", "voice", 2, ["voiced", "voiceless"]⟩,
    ⟨"Laryngeal", "spread_glottis", 2, ["aspirated"]⟩,
    ⟨"Laryngeal", "constricted_glottis", 2, ["glottalized"]⟩,
    ⟨"Laryngeal", "breathy_voice", 2, ["breathy"]⟩,
    ⟨"Laryngeal", "creaky_voice", 2, ["creaky"]⟩,
    ⟨"Manner", "sonorant", 2, ["sonorant", "obstruent"]⟩,
    ⟨"Manner", "continuant", 2, ["continuant"]⟩,
    ⟨"Manner", "nasal", 2, ["nasal"]⟩,
    ⟨"Manner", "lateral", 2, ["lateral"]⟩,
    ⟨"Manner", "strident", 2, ["sibilant"]⟩,
    ⟨"Manner", "delayed_release", 2, ["affricate"]⟩,
    ⟨"Manner", "tap_feature", 2, ["tap"]⟩,
    ⟨"Manner", "syllabic", 2, ["syllabic", "non-syllabic"]⟩,
    ⟨"Labial", "round", 3, ["rounded", "unrounded"]⟩,
    ⟨"Coronal", "anterior", 3, ["anterior"]⟩,
    ⟨"Coronal", "distributed", 3, ["distributed"]⟩,
    ⟨"Dorsal", "high", 3, ["close", "open"]⟩,
    ⟨"Dorsal", "low", 3, ["near-open", "near-close"]⟩,
    ⟨"Dorsal", "back", 3, ["back", "front"]⟩,
    ⟨"Pharyngeal", "pharyngeal", 3, ["pharyngeal"]⟩,
    ⟨"Pharyngeal", "epiglottal", 3, ["epiglottal"]⟩,
    ⟨"Glottal", "glottal", 3, ["glottal"]⟩,
    ⟨"TongueRoot", "ATR", 2, ["advanced-tongue-root", "retracted-tongue-root"]⟩,
    ⟨"Prosodic", "long", 2, ["long"]⟩,
    ⟨"Prosodic", "nasalized", 2, ["nasalized"]⟩,
    ⟨"Prosodic", "labialized", 2, ["labialized"]⟩,
    ⟨"Prosodic", "palatalized", 2, ["palatalized"]⟩,
    ⟨"Prosodic", "pharyngealized", 2, ["pharyngealized"]⟩,
    ⟨"Prosodic", "ejective", 2, ["ejective"]⟩,
    ⟨"Prosodic", "primary-stress", 2, ["primary-stress"]⟩ ]

/-- Modelled from the spec: `find_feature(label)` locates the feature node
carrying a label. -/
def find_feature (label : String) : Option GeoEntry :=
  GEOMETRY.find? (fun e => label ∈ e.labels)

/-- Modelled from the spec: the tree depth of a label's feature node; an
unknown label gets depth 0 (maximal weight, the soft-error default). -/
def featureDepth (label : String) : Nat :=
  ((find_feature label).map GeoEntry.depth).getD 0

/-- Modelled from the spec: `siblings_of(label)` — every feature label
carried by a node under the same parent as the node holding `label`
(which puts the polar opposite of `label` among its siblings), excluding
`label` itself. -/
def siblings_of (label : String) : List String :=
  match find_feature label with
  | none => []
  | some e =>
      ((GEOMETRY.filter (fun e2 => e2.parent = e.parent)).flatMap GeoEntry.labels).filter
        (fun l => l ≠ label)

/-- Modelled from the spec: adding one label to a feature set removes the
label's geometric siblings from the base before inserting the label
(sibling mutual exclusivity). -/
def addFeatureStep (base : Finset String) (label : String) : Finset String :=
  insert label (base.filter (fun y => y ∉ siblings_of label))

/-- Modelled from the spec: `add_features(base, added)` applies sibling
exclusivity for each added label in turn. -/
def add_features (base : Finset String) (added : List String) : Finset String :=
  added.foldl addFeatureStep base

/-- Modelled from the spec: one feature modifier — `-x` removes exactly
the label `x`, `+x` and bare `x` add `x` under sibling exclusivity. -/
def applyModifier (base : Finset String) (m : String) : Finset String :=
  if m.data.head? = some '-' then base.erase (String.mk (m.data.drop 1))
  else if m.data.head? = some '+' then addFeatureStep base (String.mk (m.data.drop 1))
  else addFeatureStep base m

/-- Modelled from the spec: `apply_modifiers` folds a modifier list over a
feature set. -/
def apply_modifiers (base : Finset String) (mods : List String) : Finset String :=
  mods.foldl applyModifier base

/-- Modelled from the spec: `invert_modifiers` flips the `+`/`-` prefix of
every modifier (a bare label counts as `+`). -/
def invertModifier (m : String) : String :=
  if m.data.head? = some '-' then String.mk ('+' :: m.data.drop 1)
  else if m.data.head? = some '+' then String.mk ('-' :: m.data.drop 1)
  else String.mk ('-' :: m.data)

/-- Modelled from the spec: `partial_match(pattern, target)` holds iff
every label of the pattern is in the target (subsumption for class
patterns). -/
def partial_match (pattern target : Finset String) : Bool :=
  pattern ⊆ target

/-! ## Weighted sound distance over the geometry -/

/-- Modelled from the spec: the weight of a feature label, `1/(1+depth)`,
so deeper features contribute less. -/
def featureWeight (label : String) : ℚ :=
  1 / (1 + (featureDepth label : ℚ))

/-- Total weight of a feature set. -/
def weightSum (fs : Finset String) : ℚ :=
  fs.sum featureWeight

/-- Modelled from the spec: `sound_distance(fs_a, fs_b)` sums the weights
of the labels in the symmetric difference and normalizes by the total
weight of the union. -/
def sound_distance (a b : Finset String) : ℚ :=
  weightSum ((a \ b) ∪ (b \ a)) / weightSum (a ∪ b)

/-! ## Feature systems -/

/-- Modelled from the spec: the capabilities of a feature system that the
parser and applier consume — grapheme lookup, sound-class lookup, and the
inventory used for reverse lookup.  The shared arithmetic
(`add_features`, `partial_match`, `sound_distance`) lives above, as in
the source's `features/common.py`. -/
structure FeatureSystem where
  g2f : String → Option (Finset String)
  classFeatures : String → Option (Finset String)
  inventory : List (String × Finset String)

/-- Modelled from the spec: `features_to_grapheme` returns the inventory
grapheme whose feature set minimizes the geometry sound distance, ties
broken by shortest grapheme then lexicographic order. -/
def features_to_grapheme (sys : FeatureSystem) (fs : Finset String) : String :=
  (sys.inventory.foldl
    (fun best entry =>
      match best with
      | none => some entry
      | some b =>
          let db := sound_distance fs b.2
          let de := sound_distance fs entry.2
          if de < db ∨ (de = db ∧ (entry.1.length < b.1.length ∨
              (entry.1.length = b.1.length ∧ entry.1 < b.1))) then
            some entry
          else some b)
    none).elim "?" Prod.fst

/-- Toy concrete inventory used for the end-to-end scenarios; feature
sets follow the README and user-guide examples (`p` is a voiceless
bilabial stop, `a` an open front unrounded vowel, ...). -/
def ipaInventory : List (String × Finset String) :=
  [ ("p", {"consonant", "voiceless", "bilabial", "stop"}),
    ("b", {"consonant", "voiced", "bilabial", "stop"}),
    ("t", {"consonant", "voiceless", "alveolar", "stop"}),
    ("d", {"consonant", "voiced", "alveolar", "stop"}),
    ("k", {"consonant", "voiceless", "velar", "stop"}),
    ("g", {"consonant", "voiced", "velar", "stop"}),
    ("f", {"consonant", "voiceless", "labiodental", "fricative"}),
    ("v", {"consonant", "voiced", "labiodental", "fricative"}),
    ("s", {"consonant", "voiceless", "alveolar", "fricative"}),
    ("z", {"consonant", "voiced", "alveolar", "fricative"}),
    ("n", {"consonant", "voiced", "alveolar", "nasal"}),
    ("m", {"consonant", "voiced", "bilabial", "nasal"}),
    ("a", {"vowel", "open", "front", "unrounded"}),
    ("e", {"vowel", "close-mid", "front", "unrounded"}),
    ("i", {"vowel", "close", "front", "unrounded"}),
    ("o", {"vowel", "close-mid", "back", "rounded"}),
    ("u", {"vowel", "close", "back", "rounded"}) ]

/-- Toy sound classes, as in `classes.tsv`. -/
def ipaClasses : List (String × Finset String) :=
  [ ("V", {"vowel"}), ("C", {"consonant"}), ("N", {"nasal"}),
    ("S", {"fricative"}), ("K", {"stop"}) ]

/-- The concrete `ipa` feature system over the toy inventory. -/
def ipa : FeatureSystem where
  g2f g := (ipaInventory.find? (fun e => e.1 = g)).map Prod.snd
  classFeatures g := (ipaClasses.find? (fun e => e.1 = g)).map Prod.snd
  inventory := ipaInventory

/-! ## Rule tokens

The spec's `Token` union is stratified here: `Prim` holds the primitive
tokens that may appear inside choices and sets, `Simple` the one-position
patterns a quantifier may wrap, and `Token` the full pattern alphabet.
This bakes the spec's structural invariants (primitives only inside
choices/sets, primitive or negation inside quantifiers) into the types. -/

/-- Modelled from the spec: a primitive token — concrete or class-partial
segment, boundary, empty (`:null:`), or back-reference with modifiers. -/
inductive Prim where
  | seg (sound : Sound)
  | bnd (marker : String)
  | emp
  | bref (index : Nat) (mods : List String)
deriving DecidableEq

/-- Modelled from the spec: a one-position pattern — a primitive, a
choice (`p|b`), a correspondence set (`{p|b}`), or a negation (`!p`,
`!p|b`). -/
inductive Simple where
  | prim (p : Prim)
  | choice (alts : List Prim)
  | set (alts : List Prim)
  | negation (alts : List Prim)
deriving DecidableEq

/-- Quantifier kind: `+` (one or more, greedy) or `?` (zero or one,
skip-first). -/
inductive Quant where
  | plus
  | opt
deriving DecidableEq

/-- Modelled from the spec: a rule-pattern token. -/
inductive Token where
  | simple (s : Simple)
  | focus
  | quantified (inner : Simple) (q : Quant)
  | syllableCond (pos : String)
deriving DecidableEq

/-- Modelled from the spec: a parsed rule — original text, ante, post and
optional context token sequences. -/
structure Rule where
  source : String
  ante : List Token
  post : List Token
  context : Option (List Token)
deriving DecidableEq

/-- Modelled from the spec: a parse error carrying the offending token's
index. -/
structure ParseError where
  idx : Nat
deriving DecidableEq

/-! ## Sequence parsing and rendering -/

/-- Split a character list at every occurrence of a separator. -/
def splitChars (sep : Char) : List Char → List (List Char)
  | [] => [[]]
  | c :: rest =>
      let r := splitChars sep rest
      if c = sep then [] :: r
      else
        match r with
        | g :: gs => (c :: g) :: gs
        | [] => [[c]]

/-- Whitespace tokenization with collapse of repeated separators. -/
def tokenize (text : String) : List String :=
  ((splitChars ' ' text.data).map String.mk).filter (fun s => s ≠ "")

/-- Modelled from the spec: one sequence token becomes a boundary for
`#` and otherwise a concrete sound via the feature system; an unknown
grapheme yields a sound with an empty feature set (the parser never
fails on unknown segments). -/
def elemOfToken (sys : FeatureSystem) (tok : String) : Element :=
  if tok = "#" then .boundary "#"
  else
    match sys.g2f tok with
    | some fs => .sound ⟨tok, fs, false⟩
    | none => .sound ⟨tok, ∅, false⟩

/-- Modelled from the spec: `parse_sequence` splits on whitespace and
maps each token to an element; it is a total function. -/
def parse_sequence (sys : FeatureSystem) (text : String) : List Element :=
  (tokenize text).map (elemOfToken sys)

/-- Rendering an element back to its surface form. -/
def elemStr : Element → String
  | .boundary m => m
  | .sound s => s.grapheme

/-- Rendering a sequence back to space-separated surface forms. -/
def render (es : List Element) : String :=
  String.mk (((es.map (fun e => (elemStr e).data)).intersperse [' ']).flatten)

/-! ## Rule parsing -/

/-- Decimal value of a nonempty digit string. -/
def digitsToNat (cs : List Char) : Option Nat :=
  if cs = [] then none
  else some (cs.foldl (fun n c => n * 10 + (c.toNat - 48)) 0)

/-- The three accepted rule operators. -/
def isArrow (s : String) : Bool :=
  s = ">" ∨ s = "→" ∨ s = "->"

/-- The empty terminal of the grammar file: `empty <- r':null:|0'`
(from `sound_change.ebnf`), so both `:null:` and bare `0` spell the
empty element. -/
def emptyTerminal (s : String) : Bool :=
  s = ":null:" ∨ s = "0"

/-- A token string denoting a focus (`_`, possibly with a syllable
condition suffix `_.onset` / `_.nucleus` / `_.coda`). -/
def isFocusString (s : String) : Bool :=
  s = "_" ∨ List.isPrefixOf ['_', '.'] s.data

/-- Split a token's characters into its base and a trailing bracketed
modifier part. -/
def splitModifier (cs : List Char) : List Char × List Char :=
  let base := cs.takeWhile (fun c => c ≠ '[')
  (base, cs.drop base.length)

/-- Parse a bracketed modifier character list `[+f,-g,h]` into its
items; the empty list yields no modifiers. -/
def parseMods (cs : List Char) : Option (List String) :=
  if cs = [] then some []
  else if cs.head? = some '[' ∧ cs.getLast? = some ']' then
    some ((((splitChars ',' ((cs.drop 1).dropLast)).filter (fun m => m ≠ []))).map String.mk)
  else none

/-- Check for a leading ASCII uppercase letter (sound-class syntax). -/
def startsUpper (s : String) : Bool :=
  match s.data with
  | [] => false
  | c :: _ => c.isUpper

/-- Modelled from the spec: parse one primitive token — boundary, empty,
back-reference (`@n`, 0-indexed as `n-1`, optional modifiers), sound
class (uppercase with loaded class features, partial), or grapheme
(concrete sound; unknown graphemes get an empty feature set). -/
def parsePrimStr (sys : FeatureSystem) (s : String) : Option Prim :=
  if s = "#" then some (.bnd "#")
  else if emptyTerminal s then some .emp
  else if s.data.head? = some '@' then
    let core := s.data.drop 1
    let digits := core.takeWhile Char.isDigit
    match digitsToNat digits with
    | none => none
    | some n =>
        if n = 0 then none
        else (parseMods (core.drop digits.length)).map (fun mods => .bref (n - 1) mods)
  else
    let (baseCs, modsCs) := splitModifier s.data
    let base := String.mk baseCs
    match parseMods modsCs with
    | none => none
    | some mods =>
        if startsUpper base then
          match sys.classFeatures base with
          | some fs => some (.seg ⟨base, apply_modifiers fs mods, true⟩)
          | none => some (.seg ⟨base, apply_modifiers ((sys.g2f base).getD ∅) mods, false⟩)
        else some (.seg ⟨base, apply_modifiers ((sys.g2f base).getD ∅) mods, false⟩)

/-- Split a pipe-chain `p|b|c` into its parts. -/
def splitPipes (cs : List Char) : List String :=
  ((splitChars '|' cs).filter (fun x => x ≠ [])).map String.mk

/-- Modelled from the spec: parse a one-position pattern.  `!` binds
before `|`, so `!p|b` negates the whole chain; `{…}` around a
pipe-separated list is a correspondence set; a bare pipe-chain is a
choice; anything else is a primitive. -/
def parseSimpleStr (sys : FeatureSystem) (s : String) : Option Simple :=
  if s.data.head? = some '!' then
    let alts := splitPipes (s.data.drop 1)
    if alts = [] then none
    else (alts.mapM (parsePrimStr sys)).map .negation
  else if s.data.head? = some (Char.ofNat 123) ∧ s.data.getLast? = some (Char.ofNat 125) then
    let alts := splitPipes ((s.data.drop 1).dropLast)
    if alts.length < 2 then none
    else (alts.mapM (parsePrimStr sys)).map .set
  else if s.data.contains '|' then
    ((splitPipes s.data).mapM (parsePrimStr sys)).map .choice
  else (parsePrimStr sys s).map .prim

/-- Modelled from the spec: parse one whitespace-separated rule token
into pattern tokens.  `_.pos` yields a syllable condition plus the
focus; a trailing `+`/`?` builds a quantifier, legal only over a
primitive or a negation (a quantified set or choice is a parse error,
reported as `none`). -/
def parseTokenStr (sys : FeatureSystem) (s : String) : Option (List Token) :=
  if s = "_" then some [.focus]
  else if s = "_.onset" then some [.syllableCond "onset", .focus]
  else if s = "_.nucleus" then some [.syllableCond "nucleus", .focus]
  else if s = "_.coda" then some [.syllableCond "coda", .focus]
  else if s.data.getLast? = some '+' ∧ 2 ≤ s.data.length then
    quantTok sys .plus (String.mk s.data.dropLast)
  else if s.data.getLast? = some '?' ∧ 2 ≤ s.data.length then
    quantTok sys .opt (String.mk s.data.dropLast)
  else (parseSimpleStr sys s).map (fun sp => [.simple sp])
where
  quantTok (sys : FeatureSystem) (q : Quant) (inner : String) : Option (List Token) :=
    match parseSimpleStr sys inner with
    | some (.prim p) => some [.quantified (.prim p) q]
    | some (.negation alts) => some [.quantified (.negation alts) q]
    | _ => none

/-- Parse a list of token strings, reporting the global index of the
first malformed one. -/
def parseTokens (sys : FeatureSystem) : List String → Nat → Except ParseError (List Token)
  | [], _ => .ok []
  | s :: rest, i =>
      match parseTokenStr sys s with
      | none => .error ⟨i⟩
      | some ts => (parseTokens sys rest (i + 1)).map (fun more => ts ++ more)

/-- Split the part after the arrow at the optional `/` into post and
context token strings. -/
def splitSlash (rest : List String) : List String × Option (List String) :=
  match rest.findIdx? (fun s => s = "/") with
  | some i => (rest.take i, some (rest.drop (i + 1)))
  | none => (rest, none)

/-- Index of the first focus-shaped token inside the ante or post region
of the token list (`a` is the arrow index, `postLen` the number of post
tokens). -/
def badFocusIdx (toks : List String) (a postLen : Nat) : Option Nat :=
  (List.range toks.length).find? (fun i =>
    isFocusString (toks.getD i "") &&
      (decide (i < a) || (decide (a < i) && decide (i < a + 1 + postLen))))

/-- Index of a second focus-shaped token at or after `ctxStart` (the
at-most-one-focus check for the context part). -/
def ctxSecondFocusIdx (toks : List String) (ctxStart : Nat) : Option Nat :=
  match (List.range toks.length).filter
      (fun i => decide (ctxStart ≤ i) && isFocusString (toks.getD i "")) with
  | _ :: j :: _ => some j
  | _ => none

/-- Alternative counts of the correspondence sets of a pattern, in
order. -/
def setArities (pat : List Token) : List Nat :=
  pat.filterMap (fun t =>
    match t with
    | .simple (.set alts) => some alts.length
    | _ => none)

/-- Back-reference indices occurring anywhere in a pattern. -/
def brefIndices (pat : List Token) : List Nat :=
  pat.flatMap (fun t =>
    match t with
    | .simple (.prim (.bref i _)) => [i]
    | .simple (.choice alts) => alts.filterMap fun p =>
        match p with | .bref i _ => some i | _ => none
    | .simple (.set alts) => alts.filterMap fun p =>
        match p with | .bref i _ => some i | _ => none
    | .simple (.negation alts) => alts.filterMap fun p =>
        match p with | .bref i _ => some i | _ => none
    | .quantified (.prim (.bref i _)) _ => [i]
    | _ => [])

/-- Modelled from the spec: `parse_rule` — tokenize, split at the arrow
and the optional `/`, reject a focus inside ante or post (at its token
index) and a second focus in the context, parse every token, then check
back-reference bounds and matching set arities between ante and post. -/
def parse_rule (sys : FeatureSystem) (text : String) : Except ParseError Rule :=
  let toks := tokenize text
  match toks.findIdx? isArrow with
  | none => .error ⟨0⟩
  | some a =>
      let anteS := toks.take a
      let postS := (splitSlash (toks.drop (a + 1))).1
      let ctxS := (splitSlash (toks.drop (a + 1))).2
      match badFocusIdx toks a postS.length with
      | some i => .error ⟨i⟩
      | none =>
          match ctxSecondFocusIdx toks (a + 2 + postS.length) with
          | some j => .error ⟨j⟩
          | none =>
              match parseTokens sys anteS 0, parseTokens sys postS (a + 1),
                  (ctxS.map (fun c => parseTokens sys c (a + 2 + postS.length))) with
              | .error e, _, _ => .error e
              | _, .error e, _ => .error e
              | _, _, some (.error e) => .error e
              | .ok ante, .ok post, ctxRes =>
                  let ctx : Option (List Token) :=
                    match ctxRes with
                    | some (.ok c) => some c
                    | _ => none
                  if setArities ante ≠ setArities post then .error ⟨a⟩
                  else if (brefIndices post ++ brefIndices (ctx.getD [])).any
                      (fun i => ante.length ≤ i) then .error ⟨a + 1⟩
                  else .ok ⟨text, ante, post, ctx⟩

/-! ## Pattern matching -/

/-- Number of sequence elements a primitive consumes (`:null:` is
zero-width). -/
def primSpan : Prim → Nat
  | .emp => 0
  | _ => 1

/-- Modelled from the spec: whether a primitive matches one element.  A
class-partial segment matches by feature subsumption, a concrete one by
equality; a back-reference compares against its bound ante element with
its modifiers applied (an unbound back-reference matches anything). -/
def matchPrim (_sys : FeatureSystem) (bnds : List (Option Element)) (p : Prim)
    (e : Element) : Bool :=
  match p with
  | .emp => true
  | .bnd m =>
      match e with
      | .boundary m2 => m = m2
      | .sound _ => false
  | .seg s =>
      match e with
      | .sound t =>
          if s.isPartial then partial_match s.features t.features
          else s.grapheme = t.grapheme ∧ s.features = t.features
      | .boundary _ => false
  | .bref i mods =>
      match bnds.getD i none with
      | some (.sound s) =>
          match e with
          | .sound t => apply_modifiers s.features mods = t.features
          | .boundary _ => false
      | some (.boundary m) =>
          match e with
          | .boundary m2 => m = m2
          | .sound _ => false
      | none => true

/-- Binding left by a primitive: segments and back-references bind the
consumed element, boundaries and empties bind nothing. -/
def bindOf (p : Prim) (e : Element) : Option Element :=
  match p with
  | .seg _ => some e
  | .bref _ _ => some e
  | _ => none

/-- Whether a one-position pattern matches a single element while
consuming it (used for quantifier runs; a zero-width `:null:` does not
count as a consuming match). -/
def simpleOne (sys : FeatureSystem) (bnds : List (Option Element)) (s : Simple)
    (e : Element) : Bool :=
  match s with
  | .prim p => (primSpan p = 1 : Bool) && matchPrim sys bnds p e
  | .choice alts => alts.any (fun a => (primSpan a = 1 : Bool) && matchPrim sys bnds a e)
  | .set alts => alts.any (fun a => (primSpan a = 1 : Bool) && matchPrim sys bnds a e)
  | .negation alts =>
      alts.all (fun a => !(if primSpan a = 0 then true else matchPrim sys bnds a e))

/-- Length of the maximal prefix of the sequence whose elements each
match the quantifier's inner pattern. -/
def runLen (sys : FeatureSystem) (bnds : List (Option Element)) (inner : Simple) :
    List Element → Nat
  | [] => 0
  | e :: rest => if simpleOne sys bnds inner e then runLen sys bnds inner rest + 1 else 0

/-- The list `[n, n-1, ..., 1]`: the greedy order in which a `+`
quantifier tries match counts. -/
def countdown : Nat → List Nat
  | 0 => []
  | n + 1 => (n + 1) :: countdown n

/-- Modelled from the spec: the recursive backtracking matcher.  Returns
the positional bindings, the consumed span, and the matched alternative
index of every correspondence set, or `none` on failure.  `bnds` holds
the bindings accumulated so far (for back-references), `pos` the
absolute position (for syllable conditions against `smap`).  `+` is
greedy — maximal run first, backing off one element at a time —
and `?` tries zero matches first. -/
def matchGo (sys : FeatureSystem) (smap : Option (Nat → String)) :
    List (Option Element) → List Element → Nat → List Token →
    Option (List (Option Element) × Nat × List Nat)
  | _, _, _, [] => some ([], 0, [])
  | bnds, seq, pos, .focus :: rest =>
      (matchGo sys smap (bnds ++ [none]) seq pos rest).map
        (fun r => (none :: r.1, r.2.1, r.2.2))
  | bnds, seq, pos, .syllableCond role :: rest =>
      match smap with
      | some m =>
          if m pos = role then
            (matchGo sys smap (bnds ++ [none]) seq pos rest).map
              (fun r => (none :: r.1, r.2.1, r.2.2))
          else none
      | none => none
  | bnds, seq, pos, .simple (.prim p) :: rest =>
      if primSpan p = 0 then
        (matchGo sys smap (bnds ++ [none]) seq pos rest).map
          (fun r => (none :: r.1, r.2.1, r.2.2))
      else
        match seq with
        | [] => none
        | e :: seq2 =>
            if matchPrim sys bnds p e then
              (matchGo sys smap (bnds ++ [bindOf p e]) seq2 (pos + 1) rest).map
                (fun r => (bindOf p e :: r.1, r.2.1 + 1, r.2.2))
            else none
  | bnds, seq, pos, .simple (.choice alts) :: rest =>
      alts.findSome? (fun a =>
        if primSpan a = 0 then
          (matchGo sys smap (bnds ++ [none]) seq pos rest).map
            (fun r => (none :: r.1, r.2.1, r.2.2))
        else
          match seq with
          | [] => none
          | e :: seq2 =>
              if matchPrim sys bnds a e then
                (matchGo sys smap (bnds ++ [bindOf a e]) seq2 (pos + 1) rest).map
                  (fun r => (bindOf a e :: r.1, r.2.1 + 1, r.2.2))
              else none)
  | bnds, seq, pos, .simple (.set alts) :: rest =>
      alts.enum.findSome? (fun ia =>
        if primSpan ia.2 = 0 then
          (matchGo sys smap (bnds ++ [none]) seq pos rest).map
            (fun r => (none :: r.1, r.2.1, ia.1 :: r.2.2))
        else
          match seq with
          | [] => none
          | e :: seq2 =>
              if matchPrim sys bnds ia.2 e then
                (matchGo sys smap (bnds ++ [bindOf ia.2 e]) seq2 (pos + 1) rest).map
                  (fun r => (bindOf ia.2 e :: r.1, r.2.1 + 1, ia.1 :: r.2.2))
              else none)
  | bnds, seq, pos, .simple (.negation alts) :: rest =>
      match seq with
      | [] => none
      | e :: seq2 =>
          if alts.any (fun a => if primSpan a = 0 then true else matchPrim sys bnds a e) then
            none
          else
            (matchGo sys smap (bnds ++ [none]) seq2 (pos + 1) rest).map
              (fun r => (none :: r.1, r.2.1 + 1, r.2.2))
  | bnds, seq, pos, .quantified inner .plus :: rest =>
      (countdown (runLen sys bnds inner seq)).findSome? (fun k =>
        (matchGo sys smap (bnds ++ [seq.head?]) (seq.drop k) (pos + k) rest).map
          (fun r => (seq.head? :: r.1, r.2.1 + k, r.2.2)))
  | bnds, seq, pos, .quantified inner .opt :: rest =>
      match (matchGo sys smap (bnds ++ [none]) seq pos rest).map
          (fun r => ((none : Option Element) :: r.1, r.2.1, r.2.2)) with
      | some r => some r
      | none =>
          match seq with
          | [] => none
          | e :: seq2 =>
              if simpleOne sys bnds inner e then
                (matchGo sys smap (bnds ++ [some e]) seq2 (pos + 1) rest).map
                  (fun r => (some e :: r.1, r.2.1 + 1, r.2.2))
              else none

/-- Modelled from the spec: a match result — success flag, positional
bindings, consumed span. -/
structure MatchResult where
  matched : Bool
  bindings : List (Option Element)
  span : Nat
deriving DecidableEq

/-- Modelled from the spec: `match_pattern(sequence, pattern)` evaluates
a token pattern at the head of a sequence. -/
def match_pattern (sys : FeatureSystem) (seq : List Element) (pattern : List Token) :
    MatchResult :=
  match matchGo sys none [] seq 0 pattern with
  | some r => ⟨true, r.1, r.2.1⟩
  | none => ⟨false, [], 0⟩

/-! ## Forward application -/

/-- Modelled from the spec: split a context pattern at its focus token
into left and right parts. -/
def contextSplit : Option (List Token) → List Token × List Token
  | none => ([], [])
  | some ctx =>
      match ctx.findIdx? (fun t => decide (t = Token.focus)) with
      | some i => (ctx.take i, ctx.drop (i + 1))
      | none => (ctx, [])

/-- Modelled from the spec: what one post primitive emits.  A
back-reference emits the bound ante element, with its modifiers applied
to the features and the grapheme rederived via `features_to_grapheme`;
with no modifiers the bound element is reused unchanged. -/
def primEmit (sys : FeatureSystem) (bnds : List (Option Element)) (p : Prim) :
    List Element :=
  match p with
  | .seg s => [.sound s]
  | .bnd m => [.boundary m]
  | .emp => []
  | .bref i mods =>
      match bnds.getD i none with
      | some (.sound s) =>
          if mods = [] then [.sound s]
          else
            let fs := apply_modifiers s.features mods
            [.sound ⟨features_to_grapheme sys fs, fs, false⟩]
      | some (.boundary m) => [.boundary m]
      | none => []

/-- Modelled from the spec: build the replacement from the post pattern,
the ante bindings and the matched set indices; the k-th correspondence
set of post emits the alternative whose index the k-th set of ante
matched. -/
def buildPost (sys : FeatureSystem) :
    List Token → List (Option Element) → List Nat → List Element
  | [], _, _ => []
  | .simple (.prim p) :: ts, bnds, ks => primEmit sys bnds p ++ buildPost sys ts bnds ks
  | .simple (.set alts) :: ts, bnds, ks =>
      match ks with
      | i :: ks2 => primEmit sys bnds (alts.getD i .emp) ++ buildPost sys ts bnds ks2
      | [] => buildPost sys ts bnds []
  | .simple (.choice alts) :: ts, bnds, ks =>
      (match alts with
        | a :: _ => primEmit sys bnds a
        | [] => []) ++ buildPost sys ts bnds ks
  | .simple (.negation _) :: ts, bnds, ks => buildPost sys ts bnds ks
  | .focus :: ts, bnds, ks => buildPost sys ts bnds ks
  | .syllableCond _ :: ts, bnds, ks => buildPost sys ts bnds ks
  | .quantified _ _ :: ts, bnds, ks => buildPost sys ts bnds ks

/-- Modelled from the spec: try the rule at the current position.
`doneRev` is the already-processed prefix, most recent element first;
the ante pattern must match the head of `rest`, the left context the
prefix (matched reversed), the right context the remainder after the
matched span.  On success, returns the replacement and the span. -/
def stepMatch (sys : FeatureSystem) (rule : Rule) (doneRev rest : List Element) :
    Option (List Element × Nat) :=
  match matchGo sys none [] rest 0 rule.ante with
  | none => none
  | some (bnds, span, ks) =>
      let lr := contextSplit rule.context
      if (matchGo sys none bnds doneRev 0 lr.1.reverse).isSome
          ∧ (matchGo sys none bnds (rest.drop span) 0 lr.2).isSome then
        some (buildPost sys rule.post bnds ks, span)
      else none

/-- Modelled from the spec: the forward scan — left-to-right and
single-pass; at each position either the rule applies (emit the
replacement, skip the span) or the element is copied.  A zero-width
match (pure insertion) additionally copies the current element so the
scan advances.  The fuel argument is an upper bound on the number of
scan steps; `forward` supplies the sequence length, which is always
sufficient. -/
def forwardGo (sys : FeatureSystem) (rule : Rule) :
    Nat → List Element → List Element → List Element
  | 0, _, rest => rest
  | _ + 1, _, [] => []
  | fuel + 1, doneRev, e :: rest =>
      match stepMatch sys rule doneRev (e :: rest) with
      | some (mid, span) =>
          if span = 0 then
            mid ++ e :: forwardGo sys rule fuel (e :: doneRev) rest
          else
            mid ++ forwardGo sys rule fuel
              (((e :: rest).take span).reverse ++ doneRev) ((e :: rest).drop span)
      | none => e :: forwardGo sys rule fuel (e :: doneRev) rest

/-- Modelled from the spec: `forward(sequence, rule)` — deterministic
single-pass left-to-right application. -/
def forward (sys : FeatureSystem) (seq : List Element) (rule : Rule) : List Element :=
  forwardGo sys rule seq.length [] seq

/-! ## Backward reconstruction -/

/-- Base reconstruction of one ante primitive: a segment is emitted as
itself (the proto segment), a boundary as a boundary, an empty as
nothing. -/
def primRecon : Prim → List Element
  | .seg s => [.sound s]
  | .bnd m => [.boundary m]
  | .emp => []
  | .bref _ _ => []

/-- Per-token base reconstruction slots for the ante pattern; the k-th
correspondence set reconstructs the alternative selected by the k-th
matched post set index. -/
def anteSlots : List Token → List Nat → List (List Element)
  | [], _ => []
  | .simple (.prim p) :: ts, ks => primRecon p :: anteSlots ts ks
  | .simple (.set alts) :: ts, ks =>
      match ks with
      | i :: ks2 => primRecon (alts.getD i .emp) :: anteSlots ts ks2
      | [] => [] :: anteSlots ts []
  | .simple (.choice alts) :: ts, ks =>
      (match alts with
        | a :: _ => primRecon a
        | [] => []) :: anteSlots ts ks
  | .simple (.negation _) :: ts, ks => [] :: anteSlots ts ks
  | .focus :: ts, ks => [] :: anteSlots ts ks
  | .syllableCond _ :: ts, ks => [] :: anteSlots ts ks
  | .quantified inner _ :: ts, ks =>
      (match inner with
        | .prim p => primRecon p
        | _ => []) :: anteSlots ts ks

/-- Modelled from the spec: a back-reference in post inverts by applying
the flipped modifiers to the matched post element and writing the result
into the referenced ante slot (reused unchanged when there is no
modifier). -/
def applyOverrides (sys : FeatureSystem) :
    List Token → List (Option Element) → List (List Element) → List (List Element)
  | [], _, slots => slots
  | t :: ts, bnds, slots =>
      let slots2 :=
        match t, bnds.headD none with
        | .simple (.prim (.bref i mods)), some (.sound s) =>
            if mods = [] then slots.set i [.sound s]
            else
              let fs := apply_modifiers s.features (mods.map invertModifier)
              slots.set i [.sound ⟨features_to_grapheme sys fs, fs, false⟩]
        | .simple (.prim (.bref i _)), some (.boundary m) => slots.set i [.boundary m]
        | _, _ => slots
      applyOverrides sys ts bnds.tail slots2

/-- Modelled from the spec: reconstruct the ante of a rule from a post
match (bindings and set indices). -/
def reconstructAnte (sys : FeatureSystem) (rule : Rule)
    (bnds : List (Option Element)) (ks : List Nat) : List Element :=
  (applyOverrides sys rule.post bnds (anteSlots rule.ante ks)).flatten

/-- Modelled from the spec: one backward site — if the post pattern
matches at position `i` and the context holds around the injected site,
return the prefix, the reconstructed ante, and the suffix. -/
def backwardParts (sys : FeatureSystem) (rule : Rule) (seq : List Element) (i : Nat) :
    Option (List Element × List Element × List Element) :=
  match matchGo sys none [] (seq.drop i) 0 rule.post with
  | none => none
  | some (bnds, span, ks) =>
      let pre := seq.take i
      let suf := (seq.drop i).drop span
      let lr := contextSplit rule.context
      if (matchGo sys none bnds pre.reverse 0 lr.1.reverse).isSome
          ∧ (matchGo sys none bnds suf 0 lr.2).isSome then
        some (pre, reconstructAnte sys rule bnds ks, suf)
      else none

/-- All backward reconstruction sites of a sequence under a rule. -/
def backwardSites (sys : FeatureSystem) (seq : List Element) (rule : Rule) :
    List (List Element × List Element × List Element) :=
  (List.range (seq.length + 1)).filterMap (backwardParts sys rule seq)

/-- Modelled from the spec: `backward(sequence, rule)` — the sequence
itself (the rule may not have applied) plus one candidate per post
match site, deduplicated by value equality. -/
def backward (sys : FeatureSystem) (seq : List Element) (rule : Rule) :
    List (List Element) :=
  (seq :: (backwardSites sys seq rule).map (fun x => x.1 ++ x.2.1 ++ x.2.2)).dedup

/-! ## Gradient application -/

/-- A linear congruential step: the seeded deterministic RNG behind
gradient application. -/
def lcgNext (s : Nat) : Nat :=
  (1103515245 * s + 12345) % 2147483648

/-- The coin value drawn from an RNG state, a rational in `[0, 1)`. -/
def randVal (s : Nat) : ℚ :=
  ((s % 1000 : Nat) : ℚ) / 1000

/-- Modelled from the spec: the gradient scan — the same left-to-right
match enumeration as `forwardGo`, but each match site applies only when
an independent seeded coin falls below the strength. -/
def gradientGo (sys : FeatureSystem) (rule : Rule) (strength : ℚ) :
    Nat → Nat → List Element → List Element → List Element
  | _, 0, _, rest => rest
  | _, _ + 1, _, [] => []
  | st, fuel + 1, doneRev, e :: rest =>
      match stepMatch sys rule doneRev (e :: rest) with
      | some (mid, span) =>
          let st2 := lcgNext st
          if randVal st2 < strength then
            if span = 0 then
              mid ++ e :: gradientGo sys rule strength st2 fuel (e :: doneRev) rest
            else
              mid ++ gradientGo sys rule strength st2 fuel
                (((e :: rest).take span).reverse ++ doneRev) ((e :: rest).drop span)
          else e :: gradientGo sys rule strength st2 fuel (e :: doneRev) rest
      | none => e :: gradientGo sys rule strength st fuel (e :: doneRev) rest

/-- Modelled from the spec: `apply_gradient(seq, rule_text, strength,
seed)` — parse the rule, then run the gradient scan with a seeded
deterministic RNG (an unparsable rule leaves the sequence unchanged). -/
def apply_gradient (sys : FeatureSystem) (seq : List Element) (ruleText : String)
    (strength : ℚ) (seed : Nat) : List Element :=
  match parse_rule sys ruleText with
  | .error _ => seq
  | .ok rule => gradientGo sys rule strength seed seq.length [] seq

/-! ## Concrete shorthands used by witnesses -/

/-- The parsed rule of a rule text over the toy `ipa` system (the
fallback is never reached for the parse-valid texts used below). -/
def ruleOf (t : String) : Rule :=
  (parse_rule ipa t).toOption.getD ⟨"", [], [], none⟩

end Alteruphono

namespace Alteruphono

/-! # Theorems for the claims -/

instance : DecidableEq (Except ParseError Rule) := fun a b =>
  match a, b with
  | .ok x, .ok y => decidable_of_iff (x = y) (by simp)
  | .error x, .error y => decidable_of_iff (x = y) (by simp)
  | .ok _, .error _ => isFalse (by simp)
  | .error _, .ok _ => isFalse (by simp)

/-- C1: for every parse-valid rule and every element sequence, the list
returned by `backward` contains the input sequence itself among its
candidates (the rule-did-not-apply reconstruction is always included). -/
theorem backward_includes_input (sys : FeatureSystem) (seq : List Element)
    (text : String) (rule : Rule) (_h : parse_rule sys text = .ok rule) :
    seq ∈ backward sys seq rule := by
  unfold backward
  exact List.mem_dedup.mpr (List.mem_cons_self _ _)

/-- Witness for C1 at the intervocalic-voicing rule and a concrete
daughter form. -/
theorem backward_includes_input_witness :
    parse_sequence ipa "# a b a #" ∈
      backward ipa (parse_sequence ipa "# a b a #") (ruleOf "p > b / V _ V") :=
  backward_includes_input ipa (parse_sequence ipa "# a b a #") "p > b / V _ V"
    (ruleOf "p > b / V _ V") (by decide)

/-- C7: adding one label to a feature set removes every geometric
sibling of the label (the labels under the same parent node, the polar
opposite included) and then inserts the label; non-sibling labels of the
base are preserved. -/
theorem add_features_sibling_exclusivity (base : Finset String) (x : String) :
    x ∈ add_features base [x] ∧
      (∀ y ∈ base, y ∈ siblings_of x → y ∉ add_features base [x]) ∧
      (∀ y ∈ base, y ∉ siblings_of x → y ∈ add_features base [x]) := by
  have hsib : ∀ y : String, y ∈ siblings_of x → y ≠ x := by
    intro y hy
    unfold siblings_of at hy
    cases hfind : find_feature x with
    | none => rw [hfind] at hy; simp at hy
    | some e =>
        rw [hfind] at hy
        exact of_decide_eq_true (List.mem_filter.mp hy).2
  constructor
  · simp [add_features, addFeatureStep]
  constructor
  · intro y hy hsy
    simp only [add_features, List.foldl, addFeatureStep, Finset.mem_insert,
      Finset.mem_filter]
    push_neg
    exact ⟨hsib y hsy, fun _ => hsy⟩
  · intro y hy hsy
    simp only [add_features, List.foldl, addFeatureStep, Finset.mem_insert,
      Finset.mem_filter]
    exact Or.inr ⟨hy, hsy⟩

/-- Witness for C7: adding `voiced` to `{voiceless, nasal}` drops the
Laryngeal sibling `voiceless`, keeps the Manner label `nasal`, and
inserts `voiced`. -/
theorem add_features_sibling_exclusivity_witness :
    "voiced" ∈ add_features {"voiceless", "nasal"} ["voiced"] ∧
      "voiceless" ∉ add_features {"voiceless", "nasal"} ["voiced"] ∧
      "nasal" ∈ add_features {"voiceless", "nasal"} ["voiced"] := by
  obtain ⟨h1, h2, h3⟩ := add_features_sibling_exclusivity {"voiceless", "nasal"} "voiced"
  exact ⟨h1, h2 "voiceless" (by decide) (by decide), h3 "nasal" (by decide) (by decide)⟩

/-- C6: `parse_sequence` is total on segment text — a non-`#` token
unknown to the feature system becomes a sound with an empty feature set
(it never raises), and in the matcher a class-partial segment token with
a nonempty feature set can never match such a sound. -/
theorem parse_sequence_unknown_grapheme (sys : FeatureSystem) (text tok : String)
    (hmem : tok ∈ tokenize text) (hb : tok ≠ "#") (hu : sys.g2f tok = none) :
    Element.sound ⟨tok, ∅, false⟩ ∈ parse_sequence sys text ∧
      ∀ (bnds : List (Option Element)) (s : Sound), s.isPartial = true →
        s.features ≠ ∅ →
        matchPrim sys bnds (.seg s) (.sound ⟨tok, ∅, false⟩) = false := by
  constructor
  · have : elemOfToken sys tok = Element.sound ⟨tok, ∅, false⟩ := by
      unfold elemOfToken
      rw [if_neg hb, hu]
    exact this ▸ List.mem_map_of_mem (elemOfToken sys) hmem
  · intro bnds s hp hf
    simp only [matchPrim, hp, if_true, partial_match, decide_eq_false_iff_not]
    intro hsub
    exact hf (Finset.subset_empty.mp hsub)

/-- Witness for C6: the grapheme `xq` is unknown to the toy inventory,
parses to an empty-featured sound, and fails against the class pattern
`V`. -/
theorem parse_sequence_unknown_grapheme_witness :
    Element.sound ⟨"xq", ∅, false⟩ ∈ parse_sequence ipa "# xq a #" ∧
      matchPrim ipa [] (.seg ⟨"V", {"vowel"}, true⟩)
        (.sound ⟨"xq", ∅, false⟩) = false := by
  obtain ⟨h1, h2⟩ := parse_sequence_unknown_grapheme ipa "# xq a #" "xq"
    (by decide) (by decide) (by decide)
  exact ⟨h1, h2 [] ⟨"V", {"vowel"}, true⟩ rfl (by decide)⟩

/-- C10: the grammar's empty terminal (`empty <- r':null:|0'` in
`sound_change.ebnf`) admits bare `0` as an alternative spelling of
`:null:` — for any feature system the two token strings parse to the
same empty token, and the rules `C > 0 / _ #` and `C > :null: / _ #`
get identical post patterns, a single empty (deletion) token. -/
theorem zero_spells_empty (sys : FeatureSystem) :
    parseTokenStr sys "0" = some [.simple (.prim .emp)] ∧
      parseTokenStr sys ":null:" = some [.simple (.prim .emp)] ∧
      (parse_rule ipa "C > 0 / _ #").toOption.map Rule.post =
        (parse_rule ipa "C > :null: / _ #").toOption.map Rule.post ∧
      (parse_rule ipa "C > 0 / _ #").toOption.map Rule.post =
        some [.simple (.prim .emp)] := by
  exact ⟨rfl, rfl, by decide, by decide⟩

/-- C3: a pipe-separated list inside braces parses to a correspondence
set token on each side of `\x7bp|b\x7d > \x7bf|v\x7d`, and forward
application pairs the alternatives by index, so `# p a b a #` becomes
`# f a v a #`. -/
theorem correspondence_set_forward :
    parse_rule ipa "\x7bp|b\x7d > \x7bf|v\x7d" = .ok
      ⟨"\x7bp|b\x7d > \x7bf|v\x7d",
        [.simple (.set
          [.seg ⟨"p", {"consonant", "voiceless", "bilabial", "stop"}, false⟩,
           .seg ⟨"b", {"consonant", "voiced", "bilabial", "stop"}, false⟩])],
        [.simple (.set
          [.seg ⟨"f", {"consonant", "voiceless", "labiodental", "fricative"}, false⟩,
           .seg ⟨"v", {"consonant", "voiced", "labiodental", "fricative"}, false⟩])],
        none⟩ ∧
      render (forward ipa (parse_sequence ipa "# p a b a #")
        (ruleOf "\x7bp|b\x7d > \x7bf|v\x7d")) = "# f a v a #" := by
  exact ⟨by decide, by decide⟩

/-- Every feature label has a strictly positive weight. -/
theorem featureWeight_pos (l : String) : 0 < featureWeight l := by
  unfold featureWeight
  have h : (0 : ℚ) < 1 + (featureDepth l : ℚ) := by positivity
  exact div_pos one_pos h

/-- C9: the geometry-weighted sound distance vanishes on identical
sets, is symmetric, and is bounded by 1, reaching the bound only on
disjoint feature sets. -/
theorem sound_distance_metric (a b : Finset String) :
    sound_distance a a = 0 ∧
      sound_distance a b = sound_distance b a ∧
      sound_distance a b ≤ 1 ∧
      (sound_distance a b = 1 → a ∩ b = ∅) := by
  have hsub : ((a \ b) ∪ (b \ a)) ⊆ a ∪ b := by
    intro x hx
    rcases Finset.mem_union.mp hx with h | h
    · exact Finset.mem_union_left _ (Finset.mem_sdiff.mp h).1
    · exact Finset.mem_union_right _ (Finset.mem_sdiff.mp h).1
  have hw : ∀ i : String, 0 ≤ featureWeight i := fun i => (featureWeight_pos i).le
  have hnum_le : weightSum ((a \ b) ∪ (b \ a)) ≤ weightSum (a ∪ b) :=
    Finset.sum_le_sum_of_subset_of_nonneg hsub (fun i _ _ => hw i)
  have hden_nonneg : 0 ≤ weightSum (a ∪ b) := Finset.sum_nonneg fun i _ => hw i
  refine ⟨?_, ?_, ?_, ?_⟩
  · simp [sound_distance, weightSum]
  · unfold sound_distance
    rw [Finset.union_comm (a \ b), Finset.union_comm a b]
  · exact div_le_one_of_le₀ hnum_le hden_nonneg
  · intro h1
    by_contra hne
    obtain ⟨x, hx⟩ := Finset.nonempty_iff_ne_empty.mpr hne
    have hxa : x ∈ a := (Finset.mem_inter.mp hx).1
    have hxb : x ∈ b := (Finset.mem_inter.mp hx).2
    have hxu : x ∈ a ∪ b := Finset.mem_union_left _ hxa
    have hxs : x ∉ (a \ b) ∪ (b \ a) := by
      simp [Finset.mem_union, Finset.mem_sdiff, hxa, hxb]
    have hsub2 : ((a \ b) ∪ (b \ a)) ⊆ (a ∪ b).erase x :=
      fun y hy => Finset.mem_erase.mpr ⟨fun he => hxs (he ▸ hy), hsub hy⟩
    have hsplit : featureWeight x + weightSum ((a ∪ b).erase x) = weightSum (a ∪ b) :=
      Finset.add_sum_erase _ featureWeight hxu
    have herase_nonneg : 0 ≤ weightSum ((a ∪ b).erase x) :=
      Finset.sum_nonneg fun i _ => hw i
    have hden_pos : 0 < weightSum (a ∪ b) := by
      rw [← hsplit]
      exact add_pos_of_pos_of_nonneg (featureWeight_pos x) herase_nonneg
    have hlt : weightSum ((a \ b) ∪ (b \ a)) < weightSum (a ∪ b) := by
      calc weightSum ((a \ b) ∪ (b \ a)) ≤ weightSum ((a ∪ b).erase x) :=
            Finset.sum_le_sum_of_subset_of_nonneg hsub2 (fun i _ _ => hw i)
        _ < weightSum (a ∪ b) := by
            rw [← hsplit]
            exact lt_add_of_pos_left _ (featureWeight_pos x)
    have : sound_distance a b < 1 := (div_lt_one hden_pos).mpr hlt
    exact absurd h1 (ne_of_lt this)

/-- Witness for C9: the inner implication instantiated at two concrete
overlapping sets (so distance 1 is not attained) via the theorem. -/
theorem sound_distance_metric_witness :
    sound_distance {"vowel", "open"} {"vowel", "close"} ≤ 1 ∧
      (sound_distance {"vowel", "open"} {"vowel", "close"} = 1 →
        ({"vowel", "open"} : Finset String) ∩ {"vowel", "close"} = ∅) := by
  obtain ⟨_, _, h3, h4⟩ := sound_distance_metric {"vowel", "open"} {"vowel", "close"}
  exact ⟨h3, h4⟩

/-- C5: a focus-shaped token inside the ante or the post region makes
`parse_rule` fail with a `ParseError` whose index points at a
focus-shaped token of that region; and two focus-shaped tokens inside
the context also make it fail (at most one focus is legal there). -/
theorem focus_outside_context_errors (sys : FeatureSystem) (text : String) (a : Nat)
    (ha : (tokenize text).findIdx? isArrow = some a) :
    (∀ i, i < (tokenize text).length →
      isFocusString ((tokenize text).getD i "") = true →
      (i < a ∨ (a < i ∧
        i < a + 1 + (splitSlash ((tokenize text).drop (a + 1))).1.length)) →
      ∃ j, parse_rule sys text = .error ⟨j⟩ ∧
        isFocusString ((tokenize text).getD j "") = true ∧
        (j < a ∨ (a < j ∧
          j < a + 1 + (splitSlash ((tokenize text).drop (a + 1))).1.length))) ∧
    (∀ i1 i2, a + 2 + (splitSlash ((tokenize text).drop (a + 1))).1.length ≤ i1 →
      i1 < i2 → i2 < (tokenize text).length →
      isFocusString ((tokenize text).getD i1 "") = true →
      isFocusString ((tokenize text).getD i2 "") = true →
      ∃ e, parse_rule sys text = .error e) := by
  constructor
  · intro i hi hfoc hreg
    have hsome : (badFocusIdx (tokenize text) a
        (splitSlash ((tokenize text).drop (a + 1))).1.length).isSome := by
      unfold badFocusIdx
      rw [List.find?_isSome]
      refine ⟨i, List.mem_range.mpr hi, ?_⟩
      simp only [Bool.and_eq_true, Bool.or_eq_true, decide_eq_true_eq]
      exact ⟨hfoc, hreg⟩
    obtain ⟨j, hj⟩ := Option.isSome_iff_exists.mp hsome
    have hpj := List.find?_some (by unfold badFocusIdx at hj; exact hj)
    simp only [Bool.and_eq_true, Bool.or_eq_true, decide_eq_true_eq] at hpj
    refine ⟨j, ?_, hpj.1, hpj.2⟩
    simp only [parse_rule, ha, hj]
  · intro i1 i2 hle hlt hi2 hf1 hf2
    cases hbf : badFocusIdx (tokenize text) a
        (splitSlash ((tokenize text).drop (a + 1))).1.length with
    | some j =>
        refine ⟨⟨j⟩, ?_⟩
        simp only [parse_rule, ha, hbf]
    | none =>
        have hmem1 : i1 ∈ (List.range (tokenize text).length).filter
            (fun i => decide (a + 2 +
                (splitSlash ((tokenize text).drop (a + 1))).1.length ≤ i) &&
              isFocusString ((tokenize text).getD i "")) := by
          rw [List.mem_filter]
          exact ⟨List.mem_range.mpr (Nat.lt_trans hlt hi2),
            by simp only [Bool.and_eq_true, decide_eq_true_eq]; exact ⟨hle, hf1⟩⟩
        have hmem2 : i2 ∈ (List.range (tokenize text).length).filter
            (fun i => decide (a + 2 +
                (splitSlash ((tokenize text).drop (a + 1))).1.length ≤ i) &&
              isFocusString ((tokenize text).getD i "")) := by
          rw [List.mem_filter]
          exact ⟨List.mem_range.mpr hi2,
            by simp only [Bool.and_eq_true, decide_eq_true_eq]
               exact ⟨Nat.le_trans hle (Nat.le_of_lt hlt), hf2⟩⟩
        match hL : (List.range (tokenize text).length).filter
            (fun i => decide (a + 2 +
                (splitSlash ((tokenize text).drop (a + 1))).1.length ≤ i) &&
              isFocusString ((tokenize text).getD i "")) with
        | [] =>
            rw [hL] at hmem1
            exact absurd hmem1 (List.not_mem_nil i1)
        | [x] =>
            rw [hL] at hmem1 hmem2
            have e1 := List.mem_singleton.mp hmem1
            have e2 := List.mem_singleton.mp hmem2
            exact absurd (e1.trans e2.symm) (Nat.ne_of_lt hlt)
        | x :: y :: t =>
            refine ⟨⟨y⟩, ?_⟩
            simp only [parse_rule, ha, hbf, ctxSecondFocusIdx, hL]

/-- Witness for C5: a focus inside the post of `p > _ / V _ V` is
rejected at token index 2, and a doubled context focus in
`p > b / _ _` is rejected as well. -/
theorem focus_outside_context_errors_witness :
    (∃ j, parse_rule ipa "p > _ / V _ V" = .error ⟨j⟩ ∧
      isFocusString ((tokenize "p > _ / V _ V").getD j "") = true ∧
      (j < 1 ∨ (1 < j ∧ j < 1 + 1 +
        (splitSlash ((tokenize "p > _ / V _ V").drop (1 + 1))).1.length))) ∧
    (∃ e, parse_rule ipa "p > b / _ _" = .error e) := by
  constructor
  · exact (focus_outside_context_errors ipa "p > _ / V _ V" 1 (by decide)).1
      2 (by decide) (by decide) (by decide)
  · exact (focus_outside_context_errors ipa "p > b / _ _" 1 (by decide)).2
      4 5 (by decide) (by decide) (by decide) (by decide) (by decide)

/-- A `findSome?` over the countdown `[m, ..., 1]` returns the value at
the largest count in `[1, m]` that succeeds, when every larger count
fails. -/
theorem countdown_findSome_greedy {β : Type} (f : Nat → Option β) (m k : Nat)
    (h1 : 1 ≤ k) (h2 : k ≤ m) (h3 : (f k).isSome)
    (h4 : ∀ j, k < j → j ≤ m → f j = none) :
    (countdown m).findSome? f = f k := by
  induction m with
  | zero => omega
  | succ n ih =>
      rw [countdown, List.findSome?_cons]
      rcases Nat.eq_or_lt_of_le h2 with he | hlt
      · subst he
        obtain ⟨b, hb⟩ := Option.isSome_iff_exists.mp h3
        rw [hb]
      · have hn1 : f (n + 1) = none := h4 (n + 1) hlt (Nat.le_refl _)
        rw [hn1]
        exact ih (Nat.lt_succ_iff.mp hlt) (fun j hj hj2 => h4 j hj (Nat.le_succ_of_le hj2))

/-- C4: the `+` quantifier is greedy — whenever a count `k` of
consecutive inner matches lets the rest of the pattern succeed and every
larger count up to the maximal run fails, the matcher commits to `k`
(it starts from the maximal run and backs off one element at a time);
consequently `C+ > :null: / _ #` deletes the whole final cluster of
`# a s t #`, giving `# a #`. -/
theorem plus_quantifier_greedy (sys : FeatureSystem) (smap : Option (Nat → String))
    (bnds : List (Option Element)) (seq : List Element) (pos : Nat)
    (inner : Simple) (rest : List Token) (k : Nat)
    (h1 : 1 ≤ k) (h2 : k ≤ runLen sys bnds inner seq)
    (h3 : (matchGo sys smap (bnds ++ [seq.head?]) (seq.drop k) (pos + k) rest).isSome)
    (h4 : ∀ k2, k < k2 → k2 ≤ runLen sys bnds inner seq →
      matchGo sys smap (bnds ++ [seq.head?]) (seq.drop k2) (pos + k2) rest = none) :
    matchGo sys smap bnds seq pos (.quantified inner .plus :: rest) =
      (matchGo sys smap (bnds ++ [seq.head?]) (seq.drop k) (pos + k) rest).map
        (fun r => (seq.head? :: r.1, r.2.1 + k, r.2.2)) ∧
      render (forward ipa (parse_sequence ipa "# a s t #")
        (ruleOf "C+ > :null: / _ #")) = "# a #" := by
  constructor
  · rw [matchGo]
    refine countdown_findSome_greedy _ _ k h1 h2 ?_ ?_
    · obtain ⟨b, hb⟩ := Option.isSome_iff_exists.mp h3
      rw [hb]
      rfl
    · intro j hj hj2
      rw [h4 j hj hj2]
      rfl
  · decide

/-- Witness for C4: over `s t #` with the class pattern `C` and a
boundary remainder, the greedy count is 2 (the whole cluster), and the
concrete cluster-deletion scenario holds. -/
theorem plus_quantifier_greedy_witness :
    matchGo ipa none [] (parse_sequence ipa "s t #") 0
        [.quantified (.prim (.seg ⟨"C", {"consonant"}, true⟩)) .plus,
         .simple (.prim (.bnd "#"))] =
      (matchGo ipa none ([] ++ [(parse_sequence ipa "s t #").head?])
          ((parse_sequence ipa "s t #").drop 2) (0 + 2)
          [.simple (.prim (.bnd "#"))]).map
        (fun r => ((parse_sequence ipa "s t #").head? :: r.1, r.2.1 + 2, r.2.2)) ∧
      render (forward ipa (parse_sequence ipa "# a s t #")
        (ruleOf "C+ > :null: / _ #")) = "# a #" := by
  refine plus_quantifier_greedy ipa none [] (parse_sequence ipa "s t #") 0
    (.prim (.seg ⟨"C", {"consonant"}, true⟩)) [.simple (.prim (.bnd "#"))] 2
    (by decide) (by decide) (by decide) ?_
  intro k2 hgt hle
  have hr : runLen ipa [] (.prim (.seg ⟨"C", {"consonant"}, true⟩))
      (parse_sequence ipa "s t #") = 2 := by decide
  rw [hr] at hle
  omega

/-- The RNG coin is nonnegative. -/
theorem randVal_nonneg (s : Nat) : 0 ≤ randVal s := by
  unfold randVal
  positivity

/-- The RNG coin is strictly below 1. -/
theorem randVal_lt_one (s : Nat) : randVal s < 1 := by
  unfold randVal
  rw [div_lt_one (by norm_num)]
  exact_mod_cast Nat.mod_lt s (show 0 < 1000 by norm_num)

/-- With strength at least 1 every coin falls below the strength, so the
gradient scan is the forward scan. -/
theorem gradientGo_of_one_le (sys : FeatureSystem) (rule : Rule) (strength : ℚ)
    (h : 1 ≤ strength) :
    ∀ fuel st doneRev rest, gradientGo sys rule strength st fuel doneRev rest =
      forwardGo sys rule fuel doneRev rest := by
  intro fuel
  induction fuel with
  | zero => intro st doneRev rest; rfl
  | succ n ih =>
      intro st doneRev rest
      cases rest with
      | nil => rfl
      | cons e rest2 =>
          simp only [gradientGo, forwardGo]
          cases hs : stepMatch sys rule doneRev (e :: rest2) with
          | none => simp only [ih]
          | some p =>
              rcases p with ⟨mid, span⟩
              have hlt : randVal (lcgNext st) < strength :=
                lt_of_lt_of_le (randVal_lt_one _) h
              simp only [hlt, if_true, ih]

/-- With strength at most 0 no coin falls below the strength, so the
gradient scan is the identity. -/
theorem gradientGo_of_le_zero (sys : FeatureSystem) (rule : Rule) (strength : ℚ)
    (h : strength ≤ 0) :
    ∀ fuel st doneRev rest, gradientGo sys rule strength st fuel doneRev rest = rest := by
  intro fuel
  induction fuel with
  | zero => intro st doneRev rest; rfl
  | succ n ih =>
      intro st doneRev rest
      cases rest with
      | nil => rfl
      | cons e rest2 =>
          simp only [gradientGo]
          cases hs : stepMatch sys rule doneRev (e :: rest2) with
          | none => simp only [ih]
          | some p =>
              rcases p with ⟨mid, span⟩
              have hnlt : ¬ randVal (lcgNext st) < strength :=
                not_lt.mpr (le_trans h (randVal_nonneg _))
              simp only [hnlt, if_false, ih]

/-- C8: gradient application degenerates at the extremes — strength at
least 1 gives exactly the forward application of the parsed rule, and
strength at most 0 returns the sequence unchanged, for every sequence,
parse-valid rule text and seed. -/
theorem apply_gradient_degenerate (sys : FeatureSystem) (seq : List Element)
    (text : String) (rule : Rule) (strength : ℚ) (seed : Nat)
    (h : parse_rule sys text = .ok rule) :
    (1 ≤ strength → apply_gradient sys seq text strength seed = forward sys seq rule) ∧
      (strength ≤ 0 → apply_gradient sys seq text strength seed = seq) := by
  constructor
  · intro hs
    unfold apply_gradient forward
    rw [h]
    exact gradientGo_of_one_le sys rule strength hs seq.length seed [] seq
  · intro hs
    unfold apply_gradient
    rw [h]
    exact gradientGo_of_le_zero sys rule strength hs seq.length seed [] seq

/-- Witness for C8 at the intervocalic-voicing scenario with seed 42. -/
theorem apply_gradient_degenerate_witness :
    apply_gradient ipa (parse_sequence ipa "# a p a #") "p > b / V _ V" 1 42 =
        forward ipa (parse_sequence ipa "# a p a #") (ruleOf "p > b / V _ V") ∧
      apply_gradient ipa (parse_sequence ipa "# a p a #") "p > b / V _ V" 0 42 =
        parse_sequence ipa "# a p a #" :=
  ⟨(apply_gradient_degenerate ipa (parse_sequence ipa "# a p a #") "p > b / V _ V"
      (ruleOf "p > b / V _ V") 1 42 (by decide)).1 (by norm_num),
   (apply_gradient_degenerate ipa (parse_sequence ipa "# a p a #") "p > b / V _ V"
      (ruleOf "p > b / V _ V") 0 42 (by decide)).2 (by norm_num)⟩

/-- A region where the rule matches at no position is copied verbatim by
the forward scan. -/
theorem forwardGo_no_match (sys : FeatureSystem) (rule : Rule) :
    ∀ (rest : List Element) (fuel : Nat) (doneRev : List Element),
      rest.length ≤ fuel →
      (∀ k, k < rest.length →
        stepMatch sys rule ((rest.take k).reverse ++ doneRev) (rest.drop k) = none) →
      forwardGo sys rule fuel doneRev rest = rest := by
  intro rest
  induction rest with
  | nil =>
      intro fuel doneRev _ _
      cases fuel <;> rfl
  | cons e rest2 ih =>
      intro fuel doneRev hf hk
      cases fuel with
      | zero => simp at hf
      | succ n =>
          have h0 : stepMatch sys rule doneRev (e :: rest2) = none := by
            have h := hk 0 (by simp)
            simpa using h
          simp only [forwardGo, h0]
          congr 1
          refine ih n (e :: doneRev) (by simpa using hf) ?_
          intro k hkk
          have h := hk (k + 1) (by simpa using Nat.succ_lt_succ hkk)
          rw [List.take_succ_cons, List.drop_succ_cons, List.reverse_cons,
            List.append_assoc, List.singleton_append] at h
          exact h

/-- Forward locality: when the rule matches a candidate only at one
site, emitting `mid` over a span of `rec.length` there, the scan copies
the prefix, splices `mid`, and copies the suffix. -/
theorem forwardGo_single_site (sys : FeatureSystem) (rule : Rule)
    (rec suf mid : List Element) (hrec : 1 ≤ rec.length) :
    ∀ (pre : List Element) (fuel : Nat) (doneRev : List Element),
      pre.length + suf.length + 1 ≤ fuel →
      (∀ k, k < pre.length →
        stepMatch sys rule ((pre.take k).reverse ++ doneRev)
          (pre.drop k ++ rec ++ suf) = none) →
      stepMatch sys rule (pre.reverse ++ doneRev) (rec ++ suf) = some (mid, rec.length) →
      (∀ k, k < suf.length →
        stepMatch sys rule
          ((suf.take k).reverse ++ rec.reverse ++ pre.reverse ++ doneRev)
          (suf.drop k) = none) →
      forwardGo sys rule fuel doneRev (pre ++ rec ++ suf) = pre ++ mid ++ suf := by
  intro pre
  induction pre with
  | nil =>
      intro fuel doneRev hfuel _ hat hsuf
      cases fuel with
      | zero => omega
      | succ n =>
          cases hrc : rec with
          | nil => rw [hrc] at hrec; simp at hrec
          | cons r rec2 =>
              subst hrc
              have hat2 : stepMatch sys rule doneRev (r :: (rec2 ++ suf)) =
                  some (mid, (r :: rec2).length) := by
                simpa using hat
              have hstep : forwardGo sys rule (n + 1) doneRev (r :: (rec2 ++ suf)) =
                  mid ++ forwardGo sys rule n
                    (((r :: (rec2 ++ suf)).take (r :: rec2).length).reverse ++ doneRev)
                    ((r :: (rec2 ++ suf)).drop (r :: rec2).length) := by
                rw [forwardGo, hat2]
                simp
              have htake : ((r :: (rec2 ++ suf)).take (r :: rec2).length) = r :: rec2 := by
                have h := List.take_left (r :: rec2) suf
                simp at h
                simp [h]
              have hdrop : ((r :: (rec2 ++ suf)).drop (r :: rec2).length) = suf := by
                have h := List.drop_left (r :: rec2) suf
                simp at h
                simp [h]
              rw [htake, hdrop] at hstep
              calc forwardGo sys rule (n + 1) doneRev (([] : List Element) ++ (r :: rec2) ++ suf)
                  = forwardGo sys rule (n + 1) doneRev (r :: (rec2 ++ suf)) := by simp
                _ = mid ++ forwardGo sys rule n ((r :: rec2).reverse ++ doneRev) suf := hstep
                _ = mid ++ suf := by
                      congr 1
                      refine forwardGo_no_match sys rule suf n
                        ((r :: rec2).reverse ++ doneRev) (by omega) ?_
                      intro k hkk
                      have h := hsuf k hkk
                      simpa [List.append_assoc] using h
                _ = ([] : List Element) ++ mid ++ suf := by simp
  | cons p pre2 ih =>
      intro fuel doneRev hfuel h0 hat hsuf
      cases fuel with
      | zero => omega
      | succ n =>
          have hp0 : stepMatch sys rule doneRev (p :: (pre2 ++ rec ++ suf)) = none := by
            have h := h0 0 (by simp)
            simpa using h
          have hstep : forwardGo sys rule (n + 1) doneRev (p :: (pre2 ++ rec ++ suf)) =
              p :: forwardGo sys rule n (p :: doneRev) (pre2 ++ rec ++ suf) := by
            rw [forwardGo, hp0]
          have hrest : forwardGo sys rule n (p :: doneRev) (pre2 ++ rec ++ suf) =
              pre2 ++ mid ++ suf := by
            refine ih n (p :: doneRev) (by simp at hfuel ⊢; omega) ?_ ?_ ?_
            · intro k hkk
              have h := h0 (k + 1) (by simpa using Nat.succ_lt_succ hkk)
              rw [List.take_succ_cons, List.drop_succ_cons, List.reverse_cons,
                List.append_assoc, List.singleton_append] at h
              exact h
            · have h := hat
              rw [List.reverse_cons, List.append_assoc, List.singleton_append] at h
              exact h
            · intro k hkk
              have h := hsuf k hkk
              rw [List.reverse_cons p pre2] at h
              simpa [List.append_assoc] using h
          calc forwardGo sys rule (n + 1) doneRev ((p :: pre2) ++ rec ++ suf)
              = forwardGo sys rule (n + 1) doneRev (p :: (pre2 ++ rec ++ suf)) := by simp
            _ = p :: forwardGo sys rule n (p :: doneRev) (pre2 ++ rec ++ suf) := hstep
            _ = p :: (pre2 ++ mid ++ suf) := by rw [hrest]
            _ = (p :: pre2) ++ mid ++ suf := by simp

end Alteruphono

namespace Alteruphono

/-- C2 (amended): a reconstructed backward candidate re-derives the
input under forward application, provided the rule matches the
candidate only at the injected site and its application there emits
exactly the post span it replaced. -/
theorem backward_candidate_forward_roundtrip (sys : FeatureSystem)
    (seq : List Element) (rule : Rule) (pre rec suf mid : List Element)
    (_hsite : (pre, rec, suf) ∈ backwardSites sys seq rule)
    (hmid : seq = pre ++ mid ++ suf)
    (hrec : 1 ≤ rec.length)
    (h0 : ∀ k, k < pre.length →
      stepMatch sys rule (pre.take k).reverse (pre.drop k ++ rec ++ suf) = none)
    (hat : stepMatch sys rule pre.reverse (rec ++ suf) = some (mid, rec.length))
    (hsuf : ∀ k, k < suf.length →
      stepMatch sys rule ((suf.take k).reverse ++ rec.reverse ++ pre.reverse)
        (suf.drop k) = none) :
    forward sys (pre ++ rec ++ suf) rule = seq := by
  unfold forward
  rw [hmid]
  refine forwardGo_single_site sys rule rec suf mid hrec pre
    (pre ++ rec ++ suf).length [] ?_ ?_ ?_ ?_
  · simp only [List.length_append]
    omega
  · intro k hk
    rw [List.append_nil]
    exact h0 k hk
  · rw [List.append_nil]
    exact hat
  · intro k hk
    rw [List.append_nil]
    exact hsuf k hk

/-- Counterexample to C2 as stated: under the parse-valid rule `p > b`,
the daughter `# p a b a #` has the reconstructed backward candidate
`# p a p a #` (distinct from the input), yet forward also rewrites the
`p` the daughter already contained, yielding `# b a b a #` instead of
the input. -/
theorem backward_candidate_forward_counterexample :
    parse_rule ipa "p > b" = .ok (ruleOf "p > b") ∧
      parse_sequence ipa "# p a p a #" ∈
        backward ipa (parse_sequence ipa "# p a b a #") (ruleOf "p > b") ∧
      parse_sequence ipa "# p a p a #" ≠ parse_sequence ipa "# p a b a #" ∧
      forward ipa (parse_sequence ipa "# p a p a #") (ruleOf "p > b") ≠
        parse_sequence ipa "# p a b a #" :=
  ⟨by decide, by decide, by decide, by decide⟩

/-- Witness for the amended C2: the intervocalic-voicing candidate
`# a p a #` reconstructed from `# a b a #` re-derives it. -/
theorem backward_candidate_forward_roundtrip_witness :
    forward ipa
        (parse_sequence ipa "# a" ++ parse_sequence ipa "p" ++ parse_sequence ipa "a #")
        (ruleOf "p > b / V _ V") =
      parse_sequence ipa "# a b a #" :=
  backward_candidate_forward_roundtrip ipa (parse_sequence ipa "# a b a #")
    (ruleOf "p > b / V _ V") (parse_sequence ipa "# a") (parse_sequence ipa "p")
    (parse_sequence ipa "a #") (parse_sequence ipa "b")
    (by decide) (by decide) (by decide) (by decide) (by decide) (by decide)

end Alteruphono
